import Mathlib

/-!
Verification of `csvsorter.go`: a CSV sorter built on an unbalanced binary
search tree keyed by a fixed field index.

The Go source is shallowly embedded as follows:
* `Record` (Go `type Record []string`) is `List String`.
* A Go `*Node` pointer (possibly `nil`) is the inductive `Node`, with
  `Node.nil` standing for the nil pointer and `Node.node` for a heap node
  with its `val`, `left` and `right` fields.
* `Tree` mirrors the Go struct: a `sortIndex` and a root pointer.
* `log.Fatalf` terminates the Go process; a fatal call is embedded as an
  `Except.error` carrying the diagnostic message, and successful mutation
  as `Except.ok` of the updated tree.
* `Tree.Traverse` takes a visitor in Go; here it returns the list of
  records in visit order.
* Go's `<` on strings is byte-wise lexicographic; on UTF-8 encoded text
  that order coincides with lexicographic order on the sequence of code
  points, which is how `strLt` embeds it (structurally, so that it
  evaluates in the kernel).
-/

namespace CsvSorter

/-- Go: `type Record []string`. -/
abbrev Record := List String

/-- Byte-wise lexicographic `<` of Go strings, on code-point lists. -/
def lexLt : List Char → List Char → Bool
  | [], [] => false
  | [], _ :: _ => true
  | _ :: _, [] => false
  | a :: as, b :: bs =>
    if a < b then true
    else if b < a then false
    else lexLt as bs

/-- Go string comparison `left < right`. -/
def strLt (a b : String) : Bool :=
  lexLt a.data b.data

/-- Go string comparison `a <= b`, i.e. `!(b < a)`. -/
def strLe (a b : String) : Bool :=
  !strLt b a

/-- Go heap node: `type Node struct { val Record; left *Node; right *Node }`.
`Node.nil` embeds the nil `*Node` pointer. -/
inductive Node where
  | nil : Node
  | node (val : Record) (left : Node) (right : Node) : Node
deriving DecidableEq

/-- Go: `type Tree struct { sortIndex uint; root *Node }`. -/
structure Tree where
  sortIndex : Nat
  root : Node
deriving DecidableEq

/-- Go: `func NewTree(sortIndex uint) *Tree`. -/
def NewTree (sortIndex : Nat) : Tree :=
  { sortIndex := sortIndex, root := Node.nil }

/-- Field access `r[i]` as it appears inside the comparator closure.  The
Go code only ever indexes in bounds (guarded by the `Insert` checks), so a
total embedding with a default value is faithful. -/
def fieldAt (i : Nat) (r : Record) : String :=
  r.getD i ""

/-- The comparator closure passed by `Tree.Insert`:
`func(left, right Record) bool { return left[t.sortIndex] < right[t.sortIndex] }`. -/
def recLt (i : Nat) (a b : Record) : Bool :=
  strLt (fieldAt i a) (fieldAt i b)

/-- Go: `func (n *Node) insert(value Record, cmp Comparator)`.
Where the Go code creates a leaf in a nil child slot, the embedding reaches
the `Node.nil` case and produces the fresh leaf. -/
def Node.insert : Node → Record → (Record → Record → Bool) → Node
  | .nil, value, _ => .node value .nil .nil
  | .node v l r, value, cmp =>
    if cmp value v then
      .node v (l.insert value cmp) r
    else
      .node v l (r.insert value cmp)

/-- Go: `func (t *Tree) Insert(value Record)`.  `log.Fatalf` becomes
`Except.error` with the diagnostic message. -/
def Tree.Insert (t : Tree) (value : Record) : Except String Tree :=
  match t.root with
  | .nil => .ok { t with root := .node value .nil .nil }
  | .node rv l r =>
    if t.sortIndex ≥ value.length then
      .error "index out of range"
    else if value.length ≠ rv.length then
      .error "invalid record length"
    else
      .ok { t with root := (Node.node rv l r).insert value (fun a b => recLt t.sortIndex a b) }

/-- Go: `func traverseInOrder(node *Node, reverse bool, visit Visitor)`,
returning the sequence of visited records (`first, second` inlined per
branch of the `reverse` test). -/
def traverseInOrder : Node → Bool → List Record
  | .nil, _ => []
  | .node v l r, reverse =>
    if reverse then
      traverseInOrder r reverse ++ v :: traverseInOrder l reverse
    else
      traverseInOrder l reverse ++ v :: traverseInOrder r reverse

/-- Go: `func (t *Tree) Traverse(reverse bool, visit Visitor)`.  The Go
nil-root guard is subsumed by the `Node.nil` case of `traverseInOrder`. -/
def Tree.Traverse (t : Tree) (reverse : Bool) : List Record :=
  traverseInOrder t.root reverse

/-- Go: `func BuildTreeFromStream(tree *Tree, stream <-chan Record)` — the
consumer loop `for record := range stream { tree.Insert(record) }`, with the
channel embedded as the list of records it delivers and a fatal `Insert`
aborting the whole run. -/
def BuildTreeFromStream (t : Tree) : List Record → Except String Tree
  | [] => .ok t
  | record :: rest =>
    match t.Insert record with
    | .ok t2 => BuildTreeFromStream t2 rest
    | .error e => .error e

/-- Go: `strings.Split(line, ",")` on the code-point list — splits around
every comma, with no quoting or escaping. -/
def splitFields : List Char → List (List Char)
  | [] => [[]]
  | c :: cs =>
    match splitFields cs with
    | [] => [[]]
    | f :: fs => if c = ',' then [] :: f :: fs else (c :: f) :: fs

/-- Go: `strings.Split(line, ",")`. -/
def splitComma (line : String) : Record :=
  (splitFields line.data).map String.mk

/-- Go: the scanner loop of `func ReadCSVFromFile` — reads lines until the
first empty line (or end of input) and splits each on `","`, in the order
the records are sent to the stream.  File opening is I/O outside the loop. -/
def ReadCSVFromFile : List String → List Record
  | [] => []
  | line :: rest =>
    if line = "" then []
    else splitComma line :: ReadCSVFromFile rest

/-- Number of heap nodes of a (sub)tree. -/
def Node.size : Node → Nat
  | .nil => 0
  | .node _ l r => l.size + r.size + 1

/-- Every record in the subtree satisfies the Boolean predicate. -/
def Node.all (p : Record → Bool) : Node → Bool
  | .nil => true
  | .node v l r => p v && l.all p && r.all p

/-- The binary-search-tree invariant w.r.t. the field at index `i`: every
record in a left subtree is strictly less on field `i` than its node's
record, and every record in a right subtree is equal-or-greater. -/
def isBST (i : Nat) : Node → Bool
  | .nil => true
  | .node v l r =>
    l.all (fun x => strLt (fieldAt i x) (fieldAt i v)) &&
    r.all (fun x => strLe (fieldAt i v) (fieldAt i x)) &&
    isBST i l && isBST i r

/-- Modelled from the spec: the Writer (§4.4) is the `encoding/csv` +
`bufio` external collaborator, whose write errors are sticky — after the
first failed write nothing further is serialized, and no recovery is
attempted.  `fails k` says the underlying destination fails the write of
the `k`-th visited record. -/
structure WState where
  out : List Record
  failed : Bool
  flushed : Bool
deriving DecidableEq

/-- Modelled from the spec: sequential writes of a traversal with sticky
failure, `k` being the position of the next record in the sequence. -/
def writeRecords (fails : Nat → Bool) : Nat → WState → List Record → WState
  | _, w, [] => w
  | k, w, r :: rs =>
    let w2 :=
      if w.failed then w
      else if fails k then { w with failed := true }
      else { w with out := w.out ++ [r] }
    writeRecords fails (k + 1) w2 rs

/-- Modelled from the spec: `writer.Flush()`. -/
def writerFlush (w : WState) : WState :=
  { w with flushed := true }

/-- Go: `func WriteTree(tree *Tree, writer *csv.Writer, reverse bool)` —
writes every traversed record, then flushes once. -/
def WriteTree (fails : Nat → Bool) (t : Tree) (reverse : Bool) : WState :=
  writerFlush
    (writeRecords fails 0 { out := [], failed := false, flushed := false } (t.Traverse reverse))

/-! ### Order lemmas for the lexicographic comparison -/

theorem lexLt_irrefl : ∀ as : List Char, lexLt as as = false := by
  intro as
  induction as with
  | nil => rfl
  | cons a as ih => simp [lexLt, lt_irrefl, ih]

theorem lexLt_trans : ∀ (as bs cs : List Char),
    lexLt as bs = true → lexLt bs cs = true → lexLt as cs = true := by
  intro as
  induction as with
  | nil =>
    intro bs cs h1 h2
    cases bs with
    | nil => simp [lexLt] at h1
    | cons b bs =>
      cases cs with
      | nil => simp [lexLt] at h2
      | cons c cs => rfl
  | cons a as ih =>
    intro bs cs h1 h2
    cases bs with
    | nil => simp [lexLt] at h1
    | cons b bs =>
      cases cs with
      | nil => simp [lexLt] at h2
      | cons c cs =>
        simp only [lexLt] at h1 h2 ⊢
        by_cases hab : a < b
        · by_cases hbc : b < c
          · rw [if_pos (lt_trans hab hbc)]
          · rw [if_neg hbc] at h2
            by_cases hcb : c < b
            · rw [if_pos hcb] at h2; exact absurd h2 (by simp)
            · have hbc' : b = c := le_antisymm (not_lt.mp hcb) (not_lt.mp hbc)
              subst hbc'
              rw [if_pos hab]
        · rw [if_neg hab] at h1
          by_cases hba : b < a
          · rw [if_pos hba] at h1; exact absurd h1 (by simp)
          · have hab' : a = b := le_antisymm (not_lt.mp hba) (not_lt.mp hab)
            subst hab'
            rw [if_neg hba] at h1
            by_cases hac : a < c
            · rw [if_pos hac]
            · rw [if_neg hac] at h2 ⊢
              by_cases hca : c < a
              · rw [if_pos hca] at h2; exact absurd h2 (by simp)
              · rw [if_neg hca] at h2 ⊢
                exact ih bs cs h1 h2

theorem lexLt_eq_of_not_lt : ∀ (as bs : List Char),
    lexLt as bs = false → lexLt bs as = false → as = bs := by
  intro as
  induction as with
  | nil =>
    intro bs h1 _
    cases bs with
    | nil => rfl
    | cons b bs => simp [lexLt] at h1
  | cons a as ih =>
    intro bs h1 h2
    cases bs with
    | nil => simp [lexLt] at h2
    | cons b bs =>
      simp only [lexLt] at h1 h2
      by_cases hab : a < b
      · rw [if_pos hab] at h1; exact absurd h1 (by simp)
      · by_cases hba : b < a
        · rw [if_pos hba] at h2; exact absurd h2 (by simp)
        · have hab' : a = b := le_antisymm (not_lt.mp hba) (not_lt.mp hab)
          subst hab'
          rw [if_neg hab, if_neg hab] at h1
          rw [if_neg hba, if_neg hba] at h2
          rw [ih bs h1 h2]

theorem lexLt_asymm {as bs : List Char} (h : lexLt as bs = true) : lexLt bs as = false := by
  cases hba : lexLt bs as with
  | false => rfl
  | true =>
    have := lexLt_trans as bs as h hba
    rw [lexLt_irrefl] at this
    exact absurd this (by simp)

theorem strLt_trans {a b c : String} (h1 : strLt a b = true) (h2 : strLt b c = true) :
    strLt a c = true :=
  lexLt_trans a.data b.data c.data h1 h2

theorem strLt_asymm {a b : String} (h : strLt a b = true) : strLt b a = false :=
  lexLt_asymm h

theorem strLt_irrefl (a : String) : strLt a a = false :=
  lexLt_irrefl a.data

theorem strLt_eq_of_not_lt {a b : String} (h1 : strLt a b = false) (h2 : strLt b a = false) :
    a = b := by
  have hd : a.data = b.data := lexLt_eq_of_not_lt a.data b.data h1 h2
  cases a
  cases b
  exact congrArg String.mk hd

/-! ### Structural lemmas about traversal and insertion -/

theorem all_eq_true_iff (p : Record → Bool) : ∀ nt : Node,
    nt.all p = true ↔ ∀ x ∈ traverseInOrder nt false, p x = true := by
  intro nt
  induction nt with
  | nil => simp [Node.all, traverseInOrder]
  | node v l r ihl ihr =>
    simp only [Node.all, traverseInOrder, if_neg (by simp : ¬(false = true)), Bool.and_eq_true,
      ihl, ihr, List.mem_append, List.mem_cons]
    constructor
    · rintro ⟨⟨hv, hl⟩, hr⟩ x (hx | hx | hx)
      · exact hl x hx
      · exact hx ▸ hv
      · exact hr x hx
    · intro h
      exact ⟨⟨h v (Or.inr (Or.inl rfl)), fun x hx => h x (Or.inl hx)⟩,
        fun x hx => h x (Or.inr (Or.inr hx))⟩

theorem traverseInOrder_reverse : ∀ nt : Node,
    traverseInOrder nt true = (traverseInOrder nt false).reverse := by
  intro nt
  induction nt with
  | nil => rfl
  | node v l r ihl ihr =>
    simp [traverseInOrder, ihl, ihr]

theorem insert_all {p : Record → Bool} {cmp : Record → Record → Bool} :
    ∀ {nt : Node} {v : Record}, nt.all p = true → p v = true →
      (nt.insert v cmp).all p = true := by
  intro nt
  induction nt with
  | nil =>
    intro v _ hv
    simp [Node.insert, Node.all, hv]
  | node w l r ihl ihr =>
    intro v h hv
    simp only [Node.all, Bool.and_eq_true] at h
    obtain ⟨⟨hw, hl⟩, hr⟩ := h
    simp only [Node.insert]
    by_cases hc : cmp v w
    · rw [if_pos hc]
      simp only [Node.all, Bool.and_eq_true]
      exact ⟨⟨hw, ihl hl hv⟩, hr⟩
    · rw [if_neg hc]
      simp only [Node.all, Bool.and_eq_true]
      exact ⟨⟨hw, hl⟩, ihr hr hv⟩

theorem insert_isBST {i : Nat} : ∀ {nt : Node} {v : Record}, isBST i nt = true →
    isBST i (nt.insert v (recLt i)) = true := by
  intro nt
  induction nt with
  | nil =>
    intro v _
    simp [Node.insert, isBST, Node.all]
  | node w l r ihl ihr =>
    intro v h
    simp only [isBST, Bool.and_eq_true] at h
    obtain ⟨⟨⟨hla, hra⟩, hlb⟩, hrb⟩ := h
    simp only [Node.insert]
    by_cases hc : recLt i v w
    · rw [if_pos hc]
      simp only [isBST, Bool.and_eq_true]
      refine ⟨⟨⟨?_, hra⟩, ihl hlb⟩, hrb⟩
      exact insert_all hla hc
    · rw [if_neg hc]
      simp only [isBST, Bool.and_eq_true]
      refine ⟨⟨⟨hla, ?_⟩, hlb⟩, ihr hrb⟩
      refine insert_all hra ?_
      simp only [recLt, Bool.not_eq_true] at hc
      simp [strLe, hc]

theorem traverse_insert_perm (cmp : Record → Record → Bool) : ∀ (nt : Node) (v : Record),
    (traverseInOrder (nt.insert v cmp) false).Perm (v :: traverseInOrder nt false) := by
  intro nt
  induction nt with
  | nil =>
    intro v
    simp [Node.insert, traverseInOrder]
  | node w l r ihl ihr =>
    intro v
    simp only [Node.insert]
    by_cases hc : cmp v w
    · rw [if_pos hc]
      simp only [traverseInOrder, if_neg (by simp : ¬(false = true))]
      exact (ihl v).append_right _
    · rw [if_neg hc]
      simp only [traverseInOrder, if_neg (by simp : ¬(false = true))]
      refine List.Perm.trans (((ihr v).cons w).append_left _) ?_
      have h2 : (traverseInOrder l false ++ [w]) ++ v :: traverseInOrder r false =
          traverseInOrder l false ++ w :: v :: traverseInOrder r false := by simp
      have h3 : (traverseInOrder l false ++ [w]) ++ traverseInOrder r false =
          traverseInOrder l false ++ w :: traverseInOrder r false := by simp
      rw [← h2, ← h3]
      exact List.perm_middle

theorem insert_size (cmp : Record → Record → Bool) : ∀ (nt : Node) (v : Record),
    (nt.insert v cmp).size = nt.size + 1 := by
  intro nt
  induction nt with
  | nil => intro v; rfl
  | node w l r ihl ihr =>
    intro v
    simp only [Node.insert]
    by_cases hc : cmp v w
    · rw [if_pos hc]
      simp only [Node.size, ihl]
      omega
    · rw [if_neg hc]
      simp only [Node.size, ihr]
      omega

theorem insert_root_val (cmp : Record → Record → Bool) (w : Record) (l r : Node) (v : Record) :
    ∃ l2 r2, (Node.node w l r).insert v cmp = Node.node w l2 r2 := by
  simp only [Node.insert]
  by_cases hc : cmp v w
  · exact ⟨l.insert v cmp, r, by rw [if_pos hc]⟩
  · exact ⟨l, r.insert v cmp, by rw [if_neg hc]⟩

theorem isBST_pairwise {i : Nat} : ∀ {nt : Node}, isBST i nt = true →
    (traverseInOrder nt false).Pairwise
      (fun x y => strLe (fieldAt i x) (fieldAt i y) = true) := by
  intro nt
  induction nt with
  | nil => intro _; simp [traverseInOrder]
  | node v l r ihl ihr =>
    intro h
    simp only [isBST, Bool.and_eq_true] at h
    obtain ⟨⟨⟨hla, hra⟩, hlb⟩, hrb⟩ := h
    simp only [traverseInOrder, if_neg (by simp : ¬(false = true))]
    rw [List.pairwise_append]
    refine ⟨ihl hlb, ?_, ?_⟩
    · rw [List.pairwise_cons]
      exact ⟨fun y hy => (all_eq_true_iff _ r).mp hra y hy, ihr hrb⟩
    · intro x hx y hy
      have hxv : strLt (fieldAt i x) (fieldAt i v) = true := (all_eq_true_iff _ l).mp hla x hx
      rcases List.mem_cons.mp hy with rfl | hy'
      · simp [strLe, strLt_asymm hxv]
      · have hvy : strLe (fieldAt i v) (fieldAt i y) = true := (all_eq_true_iff _ r).mp hra y hy'
        simp only [strLe, Bool.not_eq_true'] at hvy ⊢
        cases hyx : strLt (fieldAt i y) (fieldAt i x) with
        | false => rfl
        | true =>
          have hyv := strLt_trans hyx hxv
          simp [hvy] at hyv

theorem traverse_insert_filter {i : Nat} (c : String) : ∀ {nt : Node} (v : Record),
    isBST i nt = true →
    List.filter (fun x => fieldAt i x == c) (traverseInOrder (nt.insert v (recLt i)) false) =
      List.filter (fun x => fieldAt i x == c) (traverseInOrder nt false) ++
        (if (fieldAt i v == c) = true then [v] else []) := by
  intro nt
  induction nt with
  | nil =>
    intro v _
    by_cases hv : (fieldAt i v == c) = true <;>
      simp [Node.insert, traverseInOrder, List.filter, hv]
  | node w l r ihl ihr =>
    intro v h
    simp only [isBST, Bool.and_eq_true] at h
    obtain ⟨⟨⟨hla, hra⟩, hlb⟩, hrb⟩ := h
    simp only [Node.insert]
    by_cases hc : recLt i v w = true
    · rw [if_pos hc]
      have hvw : strLt (fieldAt i v) (fieldAt i w) = true := hc
      simp only [traverseInOrder, if_neg (by simp : ¬(false = true)), List.filter_append,
        List.filter_cons, ihl v hlb]
      by_cases hv : (fieldAt i v == c) = true
      · have hvc : fieldAt i v = c := by simpa using hv
        have hwc : (fieldAt i w == c) = false := by
          cases hwc' : (fieldAt i w == c) with
          | false => rfl
          | true =>
            have hwcc : fieldAt i w = c := by simpa using hwc'
            rw [hvc, hwcc, strLt_irrefl] at hvw
            exact absurd hvw (by simp)
        have hrc : List.filter (fun x => fieldAt i x == c) (traverseInOrder r false) = [] := by
          rw [List.filter_eq_nil_iff]
          intro x hx hxc
          have hx2 : fieldAt i x = c := by simpa using hxc
          have hwx : strLe (fieldAt i w) (fieldAt i x) = true := (all_eq_true_iff _ r).mp hra x hx
          simp only [strLe, Bool.not_eq_true'] at hwx
          rw [hx2, ← hvc] at hwx
          simp [hwx] at hvw
        simp [hv, hwc, hrc]
      · simp [hv]
    · rw [if_neg hc]
      simp only [traverseInOrder, if_neg (by simp : ¬(false = true)), List.filter_append,
        List.filter_cons, ihr v hrb]
      by_cases hw : (fieldAt i w == c) = true
      · simp [hw, List.append_assoc]
      · simp [hw, List.append_assoc]

/-! ### Lemmas about `Tree.Insert` and `BuildTreeFromStream` -/

theorem Insert_ok_eq {t t' : Tree} {v : Record} (h : t.Insert v = .ok t') :
    t' = { t with root := t.root.insert v (recLt t.sortIndex) } := by
  cases hr : t.root with
  | nil =>
    simp only [Tree.Insert, hr] at h
    cases h
    rfl
  | node rv l r =>
    simp only [Tree.Insert, hr] at h
    by_cases h1 : t.sortIndex ≥ v.length
    · rw [if_pos h1] at h; simp at h
    · rw [if_neg h1] at h
      by_cases h2 : v.length ≠ rv.length
      · rw [if_pos h2] at h; simp at h
      · rw [if_neg h2] at h
        cases h
        rfl

theorem Build_sortIndex : ∀ (rs : List Record) (t t' : Tree),
    BuildTreeFromStream t rs = .ok t' → t'.sortIndex = t.sortIndex := by
  intro rs
  induction rs with
  | nil =>
    intro t t' h
    cases h
    rfl
  | cons rc rs ih =>
    intro t t' h
    simp only [BuildTreeFromStream] at h
    cases hins : t.Insert rc with
    | error e => rw [hins] at h; simp at h
    | ok t2 =>
      rw [hins] at h
      rw [ih t2 t' h, Insert_ok_eq hins]

theorem Build_isBST {i : Nat} : ∀ (rs : List Record) (t t' : Tree), t.sortIndex = i →
    BuildTreeFromStream t rs = .ok t' → isBST i t.root = true → isBST i t'.root = true := by
  intro rs
  induction rs with
  | nil =>
    intro t t' _ h hb
    cases h
    exact hb
  | cons rc rs ih =>
    intro t t' hsi h hb
    simp only [BuildTreeFromStream] at h
    cases hins : t.Insert rc with
    | error e => rw [hins] at h; simp at h
    | ok t2 =>
      rw [hins] at h
      have ht2 : t2 = { t with root := t.root.insert rc (recLt t.sortIndex) } :=
        Insert_ok_eq hins
      refine ih t2 t' ?_ h ?_
      · rw [ht2, hsi]
      · rw [ht2, hsi]
        exact insert_isBST (hsi ▸ hb)

theorem Build_size : ∀ (rs : List Record) (t t' : Tree),
    BuildTreeFromStream t rs = .ok t' → t'.root.size = t.root.size + rs.length := by
  intro rs
  induction rs with
  | nil =>
    intro t t' h
    cases h
    rfl
  | cons rc rs ih =>
    intro t t' h
    simp only [BuildTreeFromStream] at h
    cases hins : t.Insert rc with
    | error e => rw [hins] at h; simp at h
    | ok t2 =>
      rw [hins] at h
      have := ih t2 t' h
      rw [this, Insert_ok_eq hins]
      simp only [insert_size, List.length_cons]
      omega

theorem Build_perm : ∀ (rs : List Record) (t t' : Tree),
    BuildTreeFromStream t rs = .ok t' →
    (traverseInOrder t'.root false).Perm (traverseInOrder t.root false ++ rs) := by
  intro rs
  induction rs with
  | nil =>
    intro t t' h
    cases h
    simp
  | cons rc rs ih =>
    intro t t' h
    simp only [BuildTreeFromStream] at h
    cases hins : t.Insert rc with
    | error e => rw [hins] at h; simp at h
    | ok t2 =>
      rw [hins] at h
      have h1 := ih t2 t' h
      have h2 : (traverseInOrder t2.root false).Perm (rc :: traverseInOrder t.root false) := by
        rw [Insert_ok_eq hins]
        exact traverse_insert_perm _ _ _
      refine (h1.trans (h2.append_right rs)).trans ?_
      exact List.perm_middle.symm

theorem Build_filter {i : Nat} (c : String) : ∀ (rs : List Record) (t t' : Tree),
    t.sortIndex = i → isBST i t.root = true →
    BuildTreeFromStream t rs = .ok t' →
    List.filter (fun x => fieldAt i x == c) (traverseInOrder t'.root false) =
      List.filter (fun x => fieldAt i x == c) (traverseInOrder t.root false) ++
        List.filter (fun x => fieldAt i x == c) rs := by
  intro rs
  induction rs with
  | nil =>
    intro t t' _ _ h
    cases h
    simp
  | cons rc rs ih =>
    intro t t' hsi hb h
    simp only [BuildTreeFromStream] at h
    cases hins : t.Insert rc with
    | error e => rw [hins] at h; simp at h
    | ok t2 =>
      rw [hins] at h
      have ht2 : t2 = { t with root := t.root.insert rc (recLt t.sortIndex) } :=
        Insert_ok_eq hins
      have hfil := ih t2 t' (by rw [ht2, hsi]) (by rw [ht2, hsi]; exact insert_isBST (hsi ▸ hb)) h
      rw [hfil, ht2]
      simp only [hsi]
      rw [traverse_insert_filter c rc hb]
      by_cases hv : (fieldAt i rc == c) = true
      · simp [hv, List.filter_cons, List.append_assoc]
      · simp [hv, List.filter_cons]

theorem Build_ok_exists {i a : Nat} (hi : i < a) : ∀ (rs : List Record) (t : Tree),
    t.sortIndex = i → (∀ r ∈ rs, r.length = a) →
    (t.root = Node.nil ∨ ∃ v l r, t.root = Node.node v l r ∧ v.length = a) →
    ∃ t', BuildTreeFromStream t rs = .ok t' := by
  intro rs
  induction rs with
  | nil => intro t _ _ _; exact ⟨t, rfl⟩
  | cons rc rs ih =>
    intro t hsi hlen hroot
    have hrc : rc.length = a := hlen rc (List.mem_cons_self rc rs)
    rcases hroot with hnil | ⟨v, l, r, hr, hva⟩
    · have hins : t.Insert rc = .ok { t with root := Node.node rc Node.nil Node.nil } := by
        simp only [Tree.Insert, hnil]
      simp only [BuildTreeFromStream, hins]
      refine ih _ hsi (fun x hx => hlen x (List.mem_cons_of_mem _ hx)) ?_
      exact Or.inr ⟨rc, Node.nil, Node.nil, rfl, hrc⟩
    · have hins : t.Insert rc =
          .ok { t with root := (Node.node v l r).insert rc (recLt t.sortIndex) } := by
        simp only [Tree.Insert, hr]
        rw [if_neg (by omega : ¬t.sortIndex ≥ rc.length), if_neg (by omega : ¬rc.length ≠ v.length)]
      simp only [BuildTreeFromStream, hins]
      refine ih _ hsi (fun x hx => hlen x (List.mem_cons_of_mem _ hx)) ?_
      obtain ⟨l2, r2, hins2⟩ := insert_root_val (recLt t.sortIndex) v l r rc
      exact Or.inr ⟨v, l2, r2, by simp [hins2], hva⟩

/-! ### Lemmas about the writer model -/

theorem writeRecords_of_failed (fails : Nat → Bool) : ∀ (rs : List Record) (m : Nat) (w : WState),
    w.failed = true → writeRecords fails m w rs = w := by
  intro rs
  induction rs with
  | nil => intro m w _; rfl
  | cons r rs ih =>
    intro m w hw
    simp only [writeRecords, hw]
    simpa using ih (m + 1) w hw

theorem writeRecords_out {fails : Nat → Bool} {k : Nat} (hk : fails k = true) :
    ∀ (rs : List Record) (m : Nat) (w : WState), m ≤ k → w.failed = false →
      (∀ j, m ≤ j → j < k → fails j = false) →
      (writeRecords fails m w rs).out = w.out ++ rs.take (k - m) ∧
      (writeRecords fails m w rs).flushed = w.flushed := by
  intro rs
  induction rs with
  | nil => intro m w _ _ _; simp [writeRecords]
  | cons r rs ih =>
    intro m w hm hw hbelow
    by_cases hmk : m = k
    · subst hmk
      simp only [writeRecords, hw, hk]
      rw [writeRecords_of_failed fails rs (m + 1) _ (by simp)]
      simp [Nat.sub_self]
    · have hmk' : m < k := lt_of_le_of_ne hm hmk
      have hfm : fails m = false := hbelow m le_rfl hmk'
      simp only [writeRecords, hw, hfm, if_neg (by simp : ¬(false = true))]
      have hrec := ih (m + 1) { out := w.out ++ [r], failed := false, flushed := w.flushed }
        hmk' rfl (fun j hj1 hj2 => hbelow j (by omega) hj2)
      simp only at hrec
      constructor
      · rw [hrec.1]
        have hkm : k - m = (k - (m + 1)) + 1 := by omega
        rw [hkm, List.take_succ_cons]
        simp
      · rw [hrec.2]

/-! ### The claims -/

/-- C1: for every sequence of same-arity records inserted via `Tree.Insert`
with a `sortIndex` valid for that arity, ascending `Traverse` visits records
with the field at `sortIndex` non-decreasing under lexicographic string
comparison, and descending `Traverse` visits them non-increasing. -/
theorem spec_traverse_sorted (i a : Nat) (rs : List Record)
    (hi : i < a) (hlen : ∀ r ∈ rs, r.length = a) :
    ∃ t, BuildTreeFromStream (NewTree i) rs = .ok t ∧
      (t.Traverse false).Pairwise (fun x y => strLe (fieldAt i x) (fieldAt i y) = true) ∧
      (t.Traverse true).Pairwise (fun x y => strLe (fieldAt i y) (fieldAt i x) = true) := by
  obtain ⟨t, ht⟩ := Build_ok_exists hi rs (NewTree i) rfl hlen (Or.inl rfl)
  have hb : isBST i t.root = true := Build_isBST rs (NewTree i) t rfl ht rfl
  refine ⟨t, ht, isBST_pairwise hb, ?_⟩
  show (traverseInOrder t.root true).Pairwise _
  rw [traverseInOrder_reverse, List.pairwise_reverse]
  exact isBST_pairwise hb

theorem spec_traverse_sorted_witness :
    (0 < 2 ∧ ∀ r ∈ ([["b", "2"], ["a", "1"], ["c", "3"]] : List Record), r.length = 2) ∧
    ∃ t, BuildTreeFromStream (NewTree 0) [["b", "2"], ["a", "1"], ["c", "3"]] = .ok t ∧
      (t.Traverse false).Pairwise (fun x y => strLe (fieldAt 0 x) (fieldAt 0 y) = true) ∧
      (t.Traverse true).Pairwise (fun x y => strLe (fieldAt 0 y) (fieldAt 0 x) = true) :=
  ⟨⟨by decide, by decide⟩,
    spec_traverse_sorted 0 2 [["b", "2"], ["a", "1"], ["c", "3"]] (by decide) (by decide)⟩

/-- C2: every tree reachable from the empty tree by `Tree.Insert` calls
satisfies the BST invariant: records in a left subtree compare strictly less
on field `sortIndex` than the node's record, records in a right subtree
equal-or-greater. -/
theorem spec_bst_invariant (i : Nat) (rs : List Record) (t : Tree)
    (h : BuildTreeFromStream (NewTree i) rs = .ok t) : isBST i t.root = true :=
  Build_isBST rs (NewTree i) t rfl h rfl

theorem spec_bst_invariant_witness :
    BuildTreeFromStream (NewTree 0) [["b"], ["a"], ["c"]] =
        .ok { sortIndex := 0,
              root := Node.node ["b"] (Node.node ["a"] Node.nil Node.nil)
                  (Node.node ["c"] Node.nil Node.nil) } ∧
    isBST 0 (Tree.root
        { sortIndex := 0,
          root := Node.node ["b"] (Node.node ["a"] Node.nil Node.nil)
              (Node.node ["c"] Node.nil Node.nil) }) = true :=
  ⟨by rfl,
    spec_bst_invariant 0 [["b"], ["a"], ["c"]]
      { sortIndex := 0,
        root := Node.node ["b"] (Node.node ["a"] Node.nil Node.nil)
            (Node.node ["c"] Node.nil Node.nil) } (by rfl)⟩

/-- C3, counterexample: the claim says inserting a record with arity at most
`sortIndex` is fatal for every tree, empty or not; but on the empty tree the
code performs no check and succeeds. -/
theorem spec_insert_index_fatal_cex :
    List.length (["a"] : Record) ≤ 5 ∧
      (NewTree 5).Insert ["a"] =
        .ok { sortIndex := 5, root := Node.node ["a"] Node.nil Node.nil } :=
  ⟨by decide, by rfl⟩

/-- C3, amended: for every NON-EMPTY tree, `Tree.Insert` of a record whose
arity is at most `sortIndex` is fatal (`log.Fatalf "index out of range"`)
rather than inserting the record. -/
theorem spec_insert_index_fatal (t : Tree) (v : Record)
    (hroot : t.root ≠ Node.nil) (hlen : v.length ≤ t.sortIndex) :
    t.Insert v = .error "index out of range" := by
  cases hr : t.root with
  | nil => exact absurd hr hroot
  | node rv l r =>
    simp only [Tree.Insert, hr]
    rw [if_pos (by omega : t.sortIndex ≥ v.length)]

theorem spec_insert_index_fatal_witness :
    (Tree.root { sortIndex := 1, root := Node.node ["x"] Node.nil Node.nil } ≠ Node.nil ∧
      List.length (["y"] : Record) ≤
        Tree.sortIndex { sortIndex := 1, root := Node.node ["x"] Node.nil Node.nil }) ∧
    Tree.Insert { sortIndex := 1, root := Node.node ["x"] Node.nil Node.nil } ["y"] =
      .error "index out of range" :=
  ⟨⟨by decide, by decide⟩,
    spec_insert_index_fatal { sortIndex := 1, root := Node.node ["x"] Node.nil Node.nil } ["y"]
      (by decide) (by decide)⟩

/-- C4: for every non-empty tree, `Tree.Insert` of a record whose field
count differs from the arity of the established schema (the root record) is
fatal; the record is not inserted and all further processing of the stream
halts — no per-record skip-and-continue. -/
theorem spec_arity_mismatch_fatal (t : Tree) (rv : Record) (l r : Node) (v : Record)
    (rest : List Record) (hroot : t.root = Node.node rv l r) (hlen : v.length ≠ rv.length) :
    ∃ e, t.Insert v = .error e ∧ BuildTreeFromStream t (v :: rest) = .error e := by
  obtain ⟨e, he⟩ : ∃ e, t.Insert v = .error e := by
    by_cases h1 : t.sortIndex ≥ v.length
    · refine ⟨"index out of range", ?_⟩
      simp only [Tree.Insert, hroot]
      rw [if_pos h1]
    · refine ⟨"invalid record length", ?_⟩
      simp only [Tree.Insert, hroot]
      rw [if_neg h1, if_pos hlen]
  exact ⟨e, he, by simp only [BuildTreeFromStream, he]⟩

theorem spec_arity_mismatch_fatal_witness :
    (Tree.root { sortIndex := 0, root := Node.node ["x", "y"] Node.nil Node.nil } =
        Node.node ["x", "y"] Node.nil Node.nil ∧
      List.length (["z"] : Record) ≠ List.length (["x", "y"] : Record)) ∧
    ∃ e, Tree.Insert { sortIndex := 0, root := Node.node ["x", "y"] Node.nil Node.nil } ["z"] =
        .error e ∧
      BuildTreeFromStream { sortIndex := 0, root := Node.node ["x", "y"] Node.nil Node.nil }
        [["z"], ["q", "r"]] = .error e :=
  ⟨⟨by decide, by decide⟩,
    spec_arity_mismatch_fatal { sortIndex := 0, root := Node.node ["x", "y"] Node.nil Node.nil }
      ["x", "y"] Node.nil Node.nil ["z"] [["q", "r"]] (by decide) (by decide)⟩

/-- C5: ingesting an error-free stream of records loses nothing and
duplicates nothing — the tree holds exactly `n` nodes and the in-order
traversal is a permutation of the inserted records. -/
theorem spec_build_no_loss (i : Nat) (rs : List Record) (t : Tree)
    (h : BuildTreeFromStream (NewTree i) rs = .ok t) :
    t.root.size = rs.length ∧ (t.Traverse false).Perm rs := by
  constructor
  · have := Build_size rs (NewTree i) t h
    simpa [NewTree, Node.size] using this
  · have := Build_perm rs (NewTree i) t h
    simpa [Tree.Traverse] using this

theorem spec_build_no_loss_witness :
    BuildTreeFromStream (NewTree 0) [["b"], ["a"], ["b"]] =
        .ok { sortIndex := 0,
              root := Node.node ["b"] (Node.node ["a"] Node.nil Node.nil)
                  (Node.node ["b"] Node.nil Node.nil) } ∧
    (Tree.root
        { sortIndex := 0,
          root := Node.node ["b"] (Node.node ["a"] Node.nil Node.nil)
              (Node.node ["b"] Node.nil Node.nil) }).size = 3 ∧
    (Tree.Traverse
        { sortIndex := 0,
          root := Node.node ["b"] (Node.node ["a"] Node.nil Node.nil)
              (Node.node ["b"] Node.nil Node.nil) }
        false).Perm [["b"], ["a"], ["b"]] :=
  ⟨by rfl,
    spec_build_no_loss 0 [["b"], ["a"], ["b"]]
      { sortIndex := 0,
        root := Node.node ["b"] (Node.node ["a"] Node.nil Node.nil)
            (Node.node ["b"] Node.nil Node.nil) } (by rfl)⟩

/-- C6: the per-source reader produces exactly one record per line preceding
the first empty line (or end of input), each record the comma-split of its
line, and nothing from any line at or after the first empty line. -/
theorem spec_reader_blocks (lines : List String) :
    ReadCSVFromFile lines = (lines.takeWhile (fun l => !(l == ""))).map splitComma := by
  induction lines with
  | nil => rfl
  | cons line rest ih =>
    simp only [ReadCSVFromFile, List.takeWhile_cons]
    by_cases h : line = ""
    · simp [h]
    · simp [h, ih]

/-- C7: in the writer model, a write failure for any single record is fatal
for the whole serialization — every record from the failing one on is not
written, with no partial-write recovery — and the explicit flush is still
performed once after the full sequence. -/
theorem spec_write_failure_flush (fails : Nat → Bool) (t : Tree) (reverse : Bool) (k : Nat)
    (hk : fails k = true) (hbelow : ∀ j, j < k → fails j = false) :
    (WriteTree fails t reverse).out = (t.Traverse reverse).take k ∧
    (WriteTree fails t reverse).flushed = true := by
  have h := writeRecords_out hk (t.Traverse reverse) 0
    { out := [], failed := false, flushed := false } (Nat.zero_le k) rfl
    (fun j _ hj => hbelow j hj)
  constructor
  · show (writerFlush _).out = _
    simpa [writerFlush] using h.1
  · rfl

theorem spec_write_failure_flush_witness :
    ((fun j => decide (j = 1)) 1 = true ∧ ∀ j, j < 1 → (fun j => decide (j = 1)) j = false) ∧
    (WriteTree (fun j => decide (j = 1))
          { sortIndex := 0,
            root := Node.node ["b"] (Node.node ["a"] Node.nil Node.nil)
                (Node.node ["c"] Node.nil Node.nil) }
          false).out =
        (Tree.Traverse
            { sortIndex := 0,
              root := Node.node ["b"] (Node.node ["a"] Node.nil Node.nil)
                  (Node.node ["c"] Node.nil Node.nil) }
            false).take 1 ∧
    (WriteTree (fun j => decide (j = 1))
          { sortIndex := 0,
            root := Node.node ["b"] (Node.node ["a"] Node.nil Node.nil)
                (Node.node ["c"] Node.nil Node.nil) }
          false).flushed = true :=
  ⟨⟨by decide, by decide⟩,
    spec_write_failure_flush (fun j => decide (j = 1))
      { sortIndex := 0,
        root := Node.node ["b"] (Node.node ["a"] Node.nil Node.nil)
            (Node.node ["c"] Node.nil Node.nil) } false 1 (by decide) (by decide)⟩

/-- C8: for every tree, the sequence visited by `Traverse` with
`reverse = true` is exactly the reversal of the sequence visited with
`reverse = false`. -/
theorem spec_traverse_reverse (t : Tree) : t.Traverse true = (t.Traverse false).reverse :=
  traverseInOrder_reverse t.root

/-- C9: inserting into an empty tree performs no validation and never
fails — for every record and every `sortIndex` (also out-of-range ones) the
record unconditionally becomes the root. -/
theorem spec_insert_empty_unchecked (t : Tree) (v : Record) (h : t.root = Node.nil) :
    t.Insert v = .ok { t with root := Node.node v Node.nil Node.nil } := by
  simp only [Tree.Insert, h]

theorem spec_insert_empty_unchecked_witness :
    Tree.root (NewTree 7) = Node.nil ∧
    (NewTree 7).Insert ["a"] = .ok { sortIndex := 7, root := Node.node ["a"] Node.nil Node.nil } :=
  ⟨by decide, spec_insert_empty_unchecked (NewTree 7) ["a"] (by decide)⟩

/-- C10: ascending traversal is stable for ties — records whose field at
`sortIndex` equals any fixed key `c` appear in ascending traversal in
insertion order, and in descending traversal in reverse insertion order. -/
theorem spec_stable_ties (i : Nat) (rs : List Record) (t : Tree) (c : String)
    (h : BuildTreeFromStream (NewTree i) rs = .ok t) :
    List.filter (fun x => fieldAt i x == c) (t.Traverse false) =
      List.filter (fun x => fieldAt i x == c) rs ∧
    List.filter (fun x => fieldAt i x == c) (t.Traverse true) =
      (List.filter (fun x => fieldAt i x == c) rs).reverse := by
  have h1 := Build_filter (i := i) c rs (NewTree i) t rfl rfl h
  have h1' : List.filter (fun x => fieldAt i x == c) (traverseInOrder t.root false) =
      List.filter (fun x => fieldAt i x == c) rs := by simpa using h1
  constructor
  · exact h1'
  · show List.filter _ (traverseInOrder t.root true) = _
    rw [traverseInOrder_reverse, List.filter_reverse, h1']

theorem spec_stable_ties_witness :
    BuildTreeFromStream (NewTree 0) [["a", "1"], ["b", "9"], ["a", "2"]] =
        .ok { sortIndex := 0,
              root := Node.node ["a", "1"] Node.nil
                  (Node.node ["b", "9"] (Node.node ["a", "2"] Node.nil Node.nil) Node.nil) } ∧
    List.filter (fun x => fieldAt 0 x == "a")
        (Tree.Traverse
          { sortIndex := 0,
            root := Node.node ["a", "1"] Node.nil
                (Node.node ["b", "9"] (Node.node ["a", "2"] Node.nil Node.nil) Node.nil) }
          false) =
      List.filter (fun x => fieldAt 0 x == "a") [["a", "1"], ["b", "9"], ["a", "2"]] ∧
    List.filter (fun x => fieldAt 0 x == "a")
        (Tree.Traverse
          { sortIndex := 0,
            root := Node.node ["a", "1"] Node.nil
                (Node.node ["b", "9"] (Node.node ["a", "2"] Node.nil Node.nil) Node.nil) }
          true) =
      (List.filter (fun x => fieldAt 0 x == "a") [["a", "1"], ["b", "9"], ["a", "2"]]).reverse :=
  ⟨by rfl,
    spec_stable_ties 0 [["a", "1"], ["b", "9"], ["a", "2"]]
      { sortIndex := 0,
        root := Node.node ["a", "1"] Node.nil
            (Node.node ["b", "9"] (Node.node ["a", "2"] Node.nil Node.nil) Node.nil) } "a"
      (by rfl)⟩

end CsvSorter
